import Mathlib

/-!
A shallow embedding of the libfork fork/join runtime core, as found in this
repository, together with proofs of the specification's claims about it.

The embedded code comes from:
* `src/bench/source/util.hpp` (libfork's `promise.hpp`): the `join_awaitable`
  (`await_ready` / `await_suspend` / `await_resume`), `final_await_suspend`,
  the promise's `final_awaitable`, and the fork-to-call `await_transform`
  rewrite for single-threaded contexts;
* `src/include/libfork/core/first_arg.hpp`: `first_arg_t::stash_exception`;
* `src/unnamed/part_001` / `src/unnamed/part_000`: the fork/join and the
  sequential Fibonacci definitions;
* `src/unnamed/part_003`: the exception-throwing Fibonacci used by the
  "Exceptional fib" test;
* `src/test/source/algorithm/scan.cpp`: the sequential in-place scan helper.

The `frame_block` control-type itself (its fields and the primitive
operations `reset`, `load_joins`, `fetch_sub_joins`) is declared in a header
that is not part of this snapshot; those primitives are modelled from the
specification's data model (section 3): `joins` is a 32-bit unsigned atomic
encoded as `U32_MAX - pending_joins`, `steals` a 32-bit unsigned counter,
and `fetch_sub` has the usual C++ wrap-around semantics on `u32`.
-/

namespace LibforkCore

/-- The constant `k_u32_max` from libfork: the largest 32-bit unsigned value. -/
def k_u32_max : Nat := 4294967295

/-- Wrap-around subtraction on 32-bit unsigned integers, the semantics of
`std::atomic_uint32_t::fetch_sub`: the stored value becomes
`(a - b) mod 2^32`, written here as `(2^32 - b mod 2^32 + a) mod 2^32`,
the same value for every `a` and `b`. -/
def u32_sub (a b : Nat) : Nat := (2 ^ 32 - b % 2 ^ 32 + a) % 2 ^ 32

/-- Modelled from the spec: the per-task control block (`frame_block`), whose
declaration is not under `src/`.  Section 3 of the spec gives its fields:
`steals : u32` (number of child continuations stolen from this frame),
`joins : u32` (atomic, encoded as `U32_MAX - pending_joins`), and an optional
captured failure (`exception_slot`, here an `Option Unit` since the payload
is irrelevant). -/
structure frame_block where
  steals : Nat
  joins : Nat
  exception_slot : Option Unit
deriving Repr, DecidableEq

namespace frame_block

/-- Modelled from the spec: `frame_block` construction at initial suspend.
Spec section 3: on initial suspend, `steals = 0` and `joins = U32_MAX`
(meaning 0 pending joins), and no failure has been captured. -/
def init : frame_block := ⟨0, k_u32_max, none⟩

/-- Modelled from the spec: `frame_block::reset()`, whose body is not under
`src/`.  Spec section 3: after a successful join the frame is reset to
`steals = 0`, `joins = U32_MAX`.  The asserts in `join_awaitable::await_resume`
(`util.hpp` lines 183-184) confirm exactly these two post-values. -/
def reset (f : frame_block) : frame_block := { f with steals := 0, joins := k_u32_max }

/-- Modelled from the spec: `frame_block::fetch_sub_joins(n, order)`.  The
C++ member forwards to `std::atomic::fetch_sub` on the `u32` `joins` field:
it returns the value held before the operation and stores the wrap-around
difference. -/
def fetch_sub_joins (f : frame_block) (n : Nat) : Nat × frame_block :=
  (f.joins, { f with joins := u32_sub f.joins n })

/-- Modelled from the spec: `frame::capture_exception`, the target of
`first_arg_t::stash_exception` (`first_arg.hpp` lines 110-114), is not under
`src/`.  Spec section 9: the source captures only the first observed failure
per frame; later failures are dropped. -/
def capture_exception (f : frame_block) (e : Unit) : frame_block :=
  match f.exception_slot with
  | none => { f with exception_slot := some e }
  | some _ => f

end frame_block

/-- Modelled from `first_arg.hpp` lines 110-114: `stash_exception` captures
the in-flight failure into the current frame via `m_frame->capture_exception()`. -/
def stash_exception (f : frame_block) : frame_block := f.capture_exception ()

/-- Result of running `join_awaitable::await_ready` (`util.hpp` lines
128-152): whether the join is ready, the frame afterwards, how many atomic
loads of `joins` were performed, and whether a stack segment was re-pushed
(`push_asp` inside `take_stack_reset_control`). -/
structure ready_result where
  ready : Bool
  frame : frame_block
  atomic_loads : Nat
  pushed_stack : Bool
deriving Repr, DecidableEq

/-- Embedding of `join_awaitable::await_ready` (`util.hpp` lines 128-152).
If `steals == 0` it returns ready at once; otherwise it performs one atomic
acquire load of `joins`, computes `joined = k_u32_max - joins`, and if
`steals == joined` calls `take_stack_reset_control` (push the saved stack
segment unless root, then `reset`) and returns ready. -/
def join_await_ready (isRoot : Bool) (f : frame_block) : ready_result :=
  if f.steals = 0 then
    ⟨true, f, 0, false⟩
  else
    let joined := k_u32_max - f.joins
    if f.steals = joined then
      ⟨true, f.reset, 1, !isRoot⟩
    else
      ⟨false, f, 1, false⟩

/-- Result of running `join_awaitable::await_suspend` (`util.hpp` lines
154-178): whether the suspending task won the race and resumes itself (else
a no-op handle is returned to the executor), the frame right after the
`fetch_sub`, the final frame, the amount subtracted, and the value the
`fetch_sub` returned. -/
structure suspend_result where
  resume_self : Bool
  frame_after_sub : frame_block
  frame : frame_block
  sub_arg : Nat
  fetched : Nat
deriving Repr, DecidableEq

/-- Embedding of `join_awaitable::await_suspend` (`util.hpp` lines 154-178).
It performs a single `fetch_sub_joins(k_u32_max - steals, release)`; if
`steals == k_u32_max - returned` the task wins the race, takes the stack and
resets the frame, and is resumed; otherwise a no-op coroutine is returned. -/
def join_await_suspend (f : frame_block) : suspend_result :=
  let steals := f.steals
  let joined := (f.fetch_sub_joins (k_u32_max - steals)).1
  let f1 := (f.fetch_sub_joins (k_u32_max - steals)).2
  if steals = k_u32_max - joined then
    ⟨true, f1, f1.reset, k_u32_max - steals, joined⟩
  else
    ⟨false, f1, f1, k_u32_max - steals, joined⟩

/-- Result of `detail::final_await_suspend` (`util.hpp` lines 198-271), the
final-suspend path of a non-root forked task: whether the parent was resumed
(else a no-op handle is returned), the number of atomic read-modify-write
operations performed on the parent frame, the value returned by the
`fetch_sub` when one happened, the parent frame afterwards, whether the
parent was `reset`, and the stack-segment traffic. -/
structure child_end_result where
  resumed_parent : Bool
  parent_atomics : Nat
  fetched : Option Nat
  parent : frame_block
  parent_reset : Bool
  pushed_stack : Bool
  released_stack : Bool
deriving Repr, DecidableEq

/-- Embedding of `detail::final_await_suspend` (`util.hpp` lines 198-271).
`popped` says whether `context->task_pop()` returned the parent's
continuation; `is_root` and `top_eq_asp` are the parent's `locale()` snapshot
compared against the worker's active stack pointer. -/
def final_await_suspend (popped is_root top_eq_asp : Bool) (parent : frame_block) :
    child_end_result :=
  if popped then
    ⟨true, 0, none, parent, false, false, false⟩
  else
    let old := (parent.fetch_sub_joins 1).1
    let p1 := (parent.fetch_sub_joins 1).2
    if old = 1 then
      ⟨true, 1, some old, p1.reset, true, !is_root && !top_eq_asp, false⟩
    else
      ⟨false, 1, some old, p1, false, false, !is_root && top_eq_asp⟩

/-- The compile-time dispatch tag of an async invocation (`tag.hpp`):
`root`, `call` or `fork`. -/
inductive tag where
  | root
  | call
  | fork
deriving Repr, DecidableEq

/-- Which coroutine handle the promise's `final_awaitable::await_suspend`
returns: the parent's handle, the parent's continuation popped from the local
deque, or a no-op handle yielding to the executor. -/
inductive resume_target where
  | parent
  | popped_parent
  | executor
deriving Repr, DecidableEq

/-- Result of `promise_type::final_awaitable::await_suspend` (`util.hpp`
lines 312-338): semaphore releases, whether the child frame was destroyed,
where control goes, whether an exception was rethrown there, atomic traffic
on the parent, the parent frame afterwards, and stack-segment traffic. -/
structure final_result where
  sem_signals : Nat
  destroyed : Bool
  target : resume_target
  rethrown : Bool
  parent_atomics : Nat
  parent : frame_block
  parent_reset : Bool
  stack_ops : Nat
deriving Repr, DecidableEq

/-- Embedding of `promise_type::final_awaitable::await_suspend` (`util.hpp`
lines 312-338).  A root task releases its semaphore, destroys the frame and
yields to the executor.  A `call` task destroys the frame and returns the
parent's handle, touching nothing else.  A `fork` task destroys the frame and
delegates to `detail::final_await_suspend`.  No branch rethrows a captured
failure (the whole function is `noexcept` and performs no exception
operation). -/
def final_awaitable_suspend (t : tag) (parent : frame_block)
    (popped is_root top_eq_asp : Bool) : final_result :=
  match t with
  | .root => ⟨1, true, .executor, false, 0, parent, false, 0⟩
  | .call => ⟨0, true, .parent, false, 0, parent, false, 0⟩
  | .fork =>
    let r := final_await_suspend popped is_root top_eq_asp parent
    ⟨0, true,
      (if r.resumed_parent then (if popped then .popped_parent else .parent) else .executor),
      false, r.parent_atomics, r.parent, r.parent_reset,
      (if r.pushed_stack then 1 else 0) + (if r.released_stack then 1 else 0)⟩

/-- The representation invariant of a live frame: `joins` holds the
`U32_MAX - j` encoding where `j` is the number of stolen children that have
already decremented (joined), `j` never exceeds `steals`, and `steals` is a
`u32`. -/
def Rep (f : frame_block) (j : Nat) : Prop :=
  f.joins = k_u32_max - j ∧ j ≤ f.steals ∧ f.steals ≤ k_u32_max

/-- The lifecycle invariant the spec demands at initial suspend, after every
successful join, and at frame destruction: `steals == 0` and
`joins == U32_MAX`. -/
def LifecycleInv (f : frame_block) : Prop :=
  f.steals = 0 ∧ f.joins = k_u32_max

/-! ### Packets and await transforms (`util.hpp` lines 280-446)

A packet bundles the first-argument head (carrying the dispatch tag and the
async function) with the call arguments.  The model is monomorphic: the
async function is identified by a number and takes one `Int` argument, which
is all the claims need. -/

/-- A call packet: the head's tag, the async function it wraps, and the
argument. -/
structure packet where
  ptag : tag
  fn : Nat
  arg : Int
deriving Repr, DecidableEq

/-- Embedding of `rewrite_tag` (`util.hpp` lines 280-283): changes a
`first_arg` head's tag to `tag::call`, leaving everything else intact. -/
def rewrite_tag (p : packet) : packet := { p with ptag := tag.call }

/-- The invocation a packet's `invoke` produces: a child coroutine created
with the given tag for the given function and argument. -/
structure invocation where
  itag : tag
  fn : Nat
  arg : Int
deriving Repr, DecidableEq

/-- Embedding of `packet::invoke`: creates the child task frame for the
packet's function, argument and tag. -/
def packet.invoke (p : packet) : invocation := ⟨p.ptag, p.fn, p.arg⟩

/-- The awaitable returned by the promise's `await_transform` overloads:
either a `fork_awaitable` (which pushes the parent, identified here by a
number, and dives into the child) or a `call_awaitable` (which just dives
into the child). -/
inductive awaitable where
  | fork_aw (parent : Nat) (child : invocation)
  | call_aw (child : invocation)
deriving Repr, DecidableEq

/-- Embedding of the `await_transform` overload set of `promise_type`
(`util.hpp` lines 406-432).  A fork-tagged packet normally becomes a
`fork_awaitable`; when the context satisfies `single_thread_context`
(`max_threads() == 1`, the `unit_pool` case) the more-constrained overload
subsumes it and rebuilds the packet with `rewrite_tag` (tag `call`), handing
it to the call transform, so the child is invoked with tag `call` and a
`call_awaitable` is produced.  A call-tagged packet always becomes a
`call_awaitable`. -/
def await_transform (single_thread : Bool) (self : Nat) (p : packet) : awaitable :=
  match p.ptag with
  | tag.fork =>
    if single_thread then awaitable.call_aw (rewrite_tag p).invoke
    else awaitable.fork_aw self p.invoke
  | _ => awaitable.call_aw p.invoke

/-! ### A sequential model of task execution

`sync_wait`, the worker loop and the schedulers are not under `src/`; per
the spec (section 6, `unit_pool`: single-threaded, forks degrade to calls;
section 5: between two suspension points the code is effectively sequential)
external submission is modelled as a sequential execution of the task
protocol: a fork dives into the child, runs it to completion, then continues
the parent; a call does the same; a join is a completed barrier.  Recursion
is bounded by fuel: `none` means the fuel ran out. -/

/-- Deep embedding of the body of an `Int`-valued async function built from
`co_await lf::fork`, `co_await lf::call`, `co_await lf::join` and
`co_return`, each `co_await` continuing with the bound result. -/
inductive task_body where
  | ret (v : Int)
  | fork_child (x : Int) (k : Int → task_body)
  | call_child (x : Int) (k : Int → task_body)
  | join_then (k : task_body)

/-- Modelled from the spec: sequential execution of one task body, the
recursive child executions supplied by `ev`.  On a single-threaded scheduler
a fork dives into the child exactly like a call, and a join is immediately
ready (no stolen children), so both awaits bind the child's value and
continue. -/
def eval_body (ev : Int → Option Int) : task_body → Option Int
  | task_body.ret v => some v
  | task_body.fork_child x k => (ev x).bind fun a => eval_body ev (k a)
  | task_body.call_child x k => (ev x).bind fun b => eval_body ev (k b)
  | task_body.join_then k => eval_body ev k

/-- Modelled from the spec: `sync_wait` of the async function `F` at an
argument, executed sequentially with the given fuel bounding the recursion
depth. -/
def eval_task (F : Int → task_body) : Nat → Int → Option Int
  | 0, _ => none
  | fuel + 1, x => eval_body (eval_task F fuel) (F x)

/-- Embedding of the fork/join Fibonacci of `src/unnamed/part_001` lines
10-23: `if n < 2 co_return n`, else fork `fib(n-1)` into `a`, call
`fib(n-2)` into `b`, join, return `a + b`. -/
def fib_body (n : Int) : task_body :=
  if n < 2 then task_body.ret n
  else
    task_body.fork_child (n - 1) fun a =>
      task_body.call_child (n - 2) fun b =>
        task_body.join_then (task_body.ret (a + b))

/-- Embedding of the sequential Fibonacci of `src/unnamed/part_000` lines
44-49: `if n < 2 return n; return fib(n-1) + fib(n-2)`. -/
def sfib (n : Int) : Int :=
  if n < 2 then n else sfib (n - 1) + sfib (n - 2)
termination_by n.toNat
decreasing_by all_goals omega

/-- Modelled from the spec: sequential execution of the exception-throwing
Fibonacci of `src/unnamed/part_003` lines 39-76 (`throw` when `n == 7`,
otherwise the fork/call pair wrapped in try/catch, a join, and a rethrow of
any caught failure after the join).  The child-to-parent transport of a
failure (capture into the frame's `exception_slot`, re-raise at the join) is
not under `src/` and follows spec section 4.6: a failing child's error
surfaces at the parent's join, before the parent's own result is formed.
`Except.error` is a raised failure, `none` is fuel exhaustion. -/
def efib_eval : Nat → Int → Option (Except Unit Int)
  | 0, _ => none
  | fuel + 1, n =>
    if n = 7 then some (Except.error ())
    else if n < 2 then some (Except.ok n)
    else
      (efib_eval fuel (n - 1)).bind fun ra =>
        match ra with
        | Except.error e => some (Except.error e)
        | Except.ok a =>
          (efib_eval fuel (n - 2)).bind fun rb =>
            match rb with
            | Except.error e => some (Except.error e)
            | Except.ok b => some (Except.ok (a + b))

/-! ### The sequential scan helper (`src/test/source/algorithm/scan.cpp`)

The C++ functions mutate a contiguous buffer of `int` through iterators in
the half-open range `[beg, end)`; `scan_down_r` also reads `*(beg - 1)`.
The buffer is modelled as a total state `Nat → Int` indexed by position, the
iterator range by a pair of indices.  The source recursion terminates for
every nonempty range (its `switch` has no case for an empty one); here the
recursion depth is bounded by explicit fuel, at least `e - b`, which the
top-level `scan` supplies. -/

/-- A compound assignment `*dst += *src` on the buffer. -/
def writeAdd (v : Nat → Int) (dst src : Nat) : Nat → Int :=
  fun j => if j = dst then v dst + v src else v j

/-- Embedding of `bop` (`scan.cpp` lines 25-29): `*rhs = *lhs + *rhs`,
returning the written (rhs) position. -/
def bop (v : Nat → Int) (l r : Nat) : Nat → Int :=
  fun j => if j = r then v l + v r else v j

/-- Embedding of `scan_up` (`scan.cpp` lines 31-46).  Size 1: nothing.
Size 2: `bop(beg, end - 1)`.  Otherwise split at `mid = beg + size / 2`,
recurse on both halves, then `bop(mid - 1, end - 1)`. -/
def scan_up : Nat → (Nat → Int) → Nat → Nat → Nat → Int
  | 0, v, _, _ => v
  | fuel + 1, v, b, e =>
    if e - b ≤ 1 then v
    else if e - b = 2 then bop v b (e - 1)
    else
      let mid := b + (e - b) / 2
      bop (scan_up fuel (scan_up fuel v b mid) mid e) (mid - 1) (e - 1)

/-- Embedding of `scan_down_r` (`scan.cpp` lines 83-99).  Size 1: nothing.
Size 2: `*beg += *(beg - 1)`.  Otherwise `*(mid - 1) += *(beg - 1)`, then
recurse on both halves. -/
def scan_down_r : Nat → (Nat → Int) → Nat → Nat → Nat → Int
  | 0, v, _, _ => v
  | fuel + 1, v, b, e =>
    if e - b ≤ 1 then v
    else if e - b = 2 then writeAdd v b (b - 1)
    else
      let mid := b + (e - b) / 2
      scan_down_r fuel (scan_down_r fuel (writeAdd v (mid - 1) (b - 1)) b mid) mid e

/-- Embedding of `scan_down_l` (`scan.cpp` lines 69-81).  Sizes 1 and 2:
nothing.  Otherwise recurse left with `scan_down_l` and right with
`scan_down_r`. -/
def scan_down_l : Nat → (Nat → Int) → Nat → Nat → Nat → Int
  | 0, v, _, _ => v
  | fuel + 1, v, b, e =>
    if e - b ≤ 2 then v
    else
      let mid := b + (e - b) / 2
      scan_down_r fuel (scan_down_l fuel v b mid) mid e

/-- Embedding of `scan` (`scan.cpp` lines 62-67): `scan_up` over the whole
range followed by `scan_down_l`, with fuel `e - b` covering the recursion
depth of both passes. -/
def scan (v : Nat → Int) (b e : Nat) : Nat → Int :=
  scan_down_l (e - b) (scan_up (e - b) v b e) b e

/-- The sum of `x` over the half-open index range `[b, e)`. -/
def rsum (x : Nat → Int) (b e : Nat) : Int := (Finset.Ico b e).sum x

/-- The shape of the state `w` that `scan_up x b e` leaves strictly inside
the range (the last position excluded), relative to the original contents
`x`: on a leaf of size 2 the first cell still holds its original value; on
an inner node the left half has this shape, the left half's last cell holds
the left half's total, and the right half has this shape.  The fuel follows
the recursion of the scan functions. -/
def IsUpInner : Nat → (Nat → Int) → (Nat → Int) → Nat → Nat → Prop
  | 0, _, _, _, _ => True
  | fuel + 1, x, w, b, e =>
    if e - b ≤ 2 then (e - b = 2 → w b = x b)
    else
      let mid := b + (e - b) / 2
      IsUpInner fuel x w b mid ∧ w (mid - 1) = rsum x b mid ∧ IsUpInner fuel x w mid e

end LibforkCore

namespace LibforkCore

/-! ## Theorems -/

-- Arithmetic facts about the u32 encoding.

theorem k_u32_max_lt : k_u32_max < 2 ^ 32 := by decide

theorem u32_sub_exact {a b : Nat} (hb : b ≤ a) (ha : a < 2 ^ 32) :
    u32_sub a b = a - b := by
  unfold u32_sub
  have hb32 : b < 2 ^ 32 := lt_of_le_of_lt hb ha
  rw [Nat.mod_eq_of_lt hb32]
  have h1 : 2 ^ 32 - b + a = (a - b) + 2 ^ 32 := by omega
  rw [h1, Nat.add_mod_right, Nat.mod_eq_of_lt (by omega)]

theorem k_u32_max_eq : k_u32_max = 4294967295 := rfl

theorem two_pow_32_eq : (2 : Nat) ^ 32 = 4294967296 := by norm_num

-- Closed forms of the three protocol functions, used to avoid re-unfolding
-- them inside every proof.

theorem join_await_ready_eq (isRoot : Bool) (f : frame_block) :
    join_await_ready isRoot f =
      if f.steals = 0 then ⟨true, f, 0, false⟩
      else if f.steals = k_u32_max - f.joins then
        ⟨true, ⟨0, k_u32_max, f.exception_slot⟩, 1, !isRoot⟩
      else ⟨false, f, 1, false⟩ := rfl

theorem join_await_suspend_eq (f : frame_block) :
    join_await_suspend f =
      if f.steals = k_u32_max - f.joins then
        ⟨true, ⟨f.steals, u32_sub f.joins (k_u32_max - f.steals), f.exception_slot⟩,
          ⟨0, k_u32_max, f.exception_slot⟩, k_u32_max - f.steals, f.joins⟩
      else
        ⟨false, ⟨f.steals, u32_sub f.joins (k_u32_max - f.steals), f.exception_slot⟩,
          ⟨f.steals, u32_sub f.joins (k_u32_max - f.steals), f.exception_slot⟩,
          k_u32_max - f.steals, f.joins⟩ := rfl

theorem final_await_suspend_popped (r t : Bool) (p : frame_block) :
    final_await_suspend true r t p = ⟨true, 0, none, p, false, false, false⟩ := rfl

theorem final_await_suspend_unpopped (r t : Bool) (p : frame_block) :
    final_await_suspend false r t p =
      if p.joins = 1 then
        ⟨true, 1, some p.joins, ⟨0, k_u32_max, p.exception_slot⟩, true, !r && !t, false⟩
      else
        ⟨false, 1, some p.joins, ⟨p.steals, u32_sub p.joins 1, p.exception_slot⟩,
          false, false, !r && t⟩ := rfl

/-- C5: if `steals == 0` when `await join` is evaluated, the join is
immediately ready, no atomic load or subtraction of `joins` is performed,
the frame is not reset, and its `steals` and `joins` fields are unchanged. -/
theorem join_ready_no_steals (isRoot : Bool) (f : frame_block) (h : f.steals = 0) :
    join_await_ready isRoot f = ⟨true, f, 0, false⟩ := by
  unfold join_await_ready
  simp [h]

/-- Witness for `join_ready_no_steals` at the freshly initialised frame. -/
theorem join_ready_no_steals_witness :
    frame_block.init.steals = 0 ∧
      join_await_ready false frame_block.init = ⟨true, frame_block.init, 0, false⟩ :=
  ⟨rfl, join_ready_no_steals false frame_block.init rfl⟩

/-- C3: the genuine-suspend path of `await join` performs a single atomic
`fetch_sub` of `U32_MAX - steals` on `joins`; for a frame in the live
representation (`joins = U32_MAX - j` with `j` joined children, `j ≤ steals`)
the counter afterwards equals `steals - j`, and the suspending parent wins
the resume race exactly when `steals = U32_MAX - returned`, which holds
exactly when every stolen child had already decremented (`j = steals`). -/
theorem join_suspend_rebase (f : frame_block) (j : Nat) (h : Rep f j) :
    (join_await_suspend f).sub_arg = k_u32_max - f.steals ∧
    (join_await_suspend f).fetched = f.joins ∧
    (join_await_suspend f).frame_after_sub.joins = f.steals - j ∧
    ((join_await_suspend f).resume_self = true ↔
      f.steals = k_u32_max - (join_await_suspend f).fetched) ∧
    ((join_await_suspend f).resume_self = true ↔ j = f.steals) := by
  obtain ⟨hj, hle, hs⟩ := h
  have hk := k_u32_max_eq
  have h32 := two_pow_32_eq
  have hsub : u32_sub f.joins (k_u32_max - f.steals) = f.steals - j := by
    rw [hj, u32_sub_exact (by omega) (by omega)]
    omega
  rw [join_await_suspend_eq]
  by_cases hc : f.steals = k_u32_max - f.joins
  · rw [if_pos hc]
    exact ⟨rfl, rfl, hsub, ⟨fun _ => hc, fun _ => rfl⟩,
      ⟨fun _ => by omega, fun _ => rfl⟩⟩
  · rw [if_neg hc]
    exact ⟨rfl, rfl, hsub, ⟨fun hff => Bool.noConfusion hff, fun hcc => absurd hcc hc⟩,
      ⟨fun hff => Bool.noConfusion hff,
        fun hjj => absurd (show f.steals = k_u32_max - f.joins by omega) hc⟩⟩

/-- Witness for `join_suspend_rebase`: a frame with two stolen children, one
of them already joined; the subtraction leaves the counter at `2 - 1` and
the parent loses the race. -/
theorem join_suspend_rebase_witness :
    Rep ⟨2, k_u32_max - 1, none⟩ 1 ∧
      (join_await_suspend ⟨2, k_u32_max - 1, none⟩).frame_after_sub.joins = 2 - 1 ∧
      ((join_await_suspend ⟨2, k_u32_max - 1, none⟩).resume_self = true ↔ 1 = 2) := by
  have hrep : Rep ⟨2, k_u32_max - 1, none⟩ 1 := ⟨rfl, by decide, by decide⟩
  have h := join_suspend_rebase ⟨2, k_u32_max - 1, none⟩ 1 hrep
  exact ⟨hrep, h.2.2.1, h.2.2.2.2⟩

/-- C4: at the final suspend of a non-root forked task, if the parent's
continuation is popped from the local deque it is resumed directly with no
atomic operation on the parent and the parent frame untouched; otherwise the
child performs exactly one atomic `fetch_sub(1)` on the parent's `joins` and
resumes the parent (resetting its frame, restoring the stack when the
snapshot top differs from the active stack pointer) exactly when the value
returned by the decrement was `1`; a loser only releases the parent's stack
segment when it holds it and yields to the executor. -/
theorem final_await_suspend_spec :
    (∀ (is_root top_eq : Bool) (parent : frame_block),
      final_await_suspend true is_root top_eq parent =
        ⟨true, 0, none, parent, false, false, false⟩) ∧
    (∀ (is_root top_eq : Bool) (parent : frame_block),
      (final_await_suspend false is_root top_eq parent).parent_atomics = 1 ∧
      (final_await_suspend false is_root top_eq parent).fetched = some parent.joins ∧
      ((final_await_suspend false is_root top_eq parent).resumed_parent = true ↔
        parent.joins = 1) ∧
      ((final_await_suspend false is_root top_eq parent).resumed_parent = true →
        (final_await_suspend false is_root top_eq parent).parent_reset = true ∧
        LifecycleInv (final_await_suspend false is_root top_eq parent).parent ∧
        (final_await_suspend false is_root top_eq parent).pushed_stack =
          (!is_root && !top_eq)) ∧
      ((final_await_suspend false is_root top_eq parent).resumed_parent = false →
        (final_await_suspend false is_root top_eq parent).parent.joins =
          u32_sub parent.joins 1 ∧
        (final_await_suspend false is_root top_eq parent).parent_reset = false ∧
        (final_await_suspend false is_root top_eq parent).released_stack =
          (!is_root && top_eq))) := by
  constructor
  · intro is_root top_eq parent
    rfl
  · intro is_root top_eq parent
    rw [final_await_suspend_unpopped]
    by_cases hj : parent.joins = 1
    · rw [if_pos hj]
      exact ⟨rfl, rfl, ⟨fun _ => hj, fun _ => rfl⟩,
        fun _ => ⟨rfl, ⟨rfl, rfl⟩, rfl⟩,
        fun hff => Bool.noConfusion hff⟩
    · rw [if_neg hj]
      exact ⟨rfl, rfl, ⟨fun hff => Bool.noConfusion hff, fun hjj => absurd hjj hj⟩,
        fun hff => Bool.noConfusion hff,
        fun _ => ⟨rfl, rfl, rfl⟩⟩

/-- Witness for `final_await_suspend_spec`: a non-popped parent whose
rebased counter is `1`, so the completing child is the last and resumes it. -/
theorem final_await_suspend_spec_witness :
    (final_await_suspend false false false ⟨0, 1, none⟩).resumed_parent = true ∧
    (final_await_suspend false false false ⟨0, 1, none⟩).parent_reset = true := by
  have h := final_await_suspend_spec.2 false false ⟨0, 1, none⟩
  have h1 : (⟨0, 1, none⟩ : frame_block).joins = 1 := rfl
  exact ⟨h.2.2.1.mpr h1, (h.2.2.2.1 (h.2.2.1.mpr h1)).1⟩

/-- C8: the final suspend of a root task signals the task's embedded
semaphore exactly once, destroys the frame, and yields to the executor (a
no-op continuation is returned), with no other effect. -/
theorem root_final_suspend_signals_once (p : frame_block) (a b c : Bool) :
    final_awaitable_suspend tag.root p a b c =
      ⟨1, true, resume_target.executor, false, 0, p, false, 0⟩ := rfl

/-- C9: the final suspend of a `call`-tagged task returns the parent's
resume handle directly: the frame is destroyed, no atomic operation touches
the parent's `joins`, the parent frame is not reset, and no cactus-stack
segment is pushed or popped. -/
theorem call_final_suspend_returns_parent (p : frame_block) (a b c : Bool) :
    final_awaitable_suspend tag.call p a b c =
      ⟨0, true, resume_target.parent, false, 0, p, false, 0⟩ := rfl

/-- C7: the frame lifecycle invariant: the freshly initialised frame has
`steals = 0` and `joins = U32_MAX`; `reset` restores exactly that state; and
every path that completes a join — the ready path, the won suspend race, and
the last-child resume in `final_await_suspend` — leaves the frame in that
state, so it holds at frame destruction. -/
theorem frame_lifecycle_inv :
    LifecycleInv frame_block.init ∧
    (∀ f : frame_block, LifecycleInv f.reset) ∧
    (∀ (isRoot : Bool) (f : frame_block) (j : Nat), Rep f j →
      (join_await_ready isRoot f).ready = true →
      LifecycleInv (join_await_ready isRoot f).frame) ∧
    (∀ (f : frame_block) (j : Nat), Rep f j →
      (join_await_suspend f).resume_self = true →
      LifecycleInv (join_await_suspend f).frame) ∧
    (∀ (is_root top_eq : Bool) (f : frame_block),
      (final_await_suspend false is_root top_eq f).resumed_parent = true →
      LifecycleInv (final_await_suspend false is_root top_eq f).parent) := by
  refine ⟨⟨rfl, rfl⟩, fun f => ⟨rfl, rfl⟩, ?_, ?_, ?_⟩
  · intro isRoot f j hrep hready
    obtain ⟨hj, hle, hs⟩ := hrep
    rw [join_await_ready_eq] at hready ⊢
    by_cases h0 : f.steals = 0
    · rw [if_pos h0] at hready ⊢
      have hj0 : j = 0 := by omega
      exact ⟨h0, show f.joins = k_u32_max by omega⟩
    · rw [if_neg h0] at hready ⊢
      by_cases hc : f.steals = k_u32_max - f.joins
      · rw [if_pos hc] at hready ⊢
        exact ⟨rfl, rfl⟩
      · rw [if_neg hc] at hready
        exact Bool.noConfusion hready
  · intro f j hrep hwin
    rw [join_await_suspend_eq] at hwin ⊢
    by_cases hc : f.steals = k_u32_max - f.joins
    · rw [if_pos hc] at hwin ⊢
      exact ⟨rfl, rfl⟩
    · rw [if_neg hc] at hwin
      exact Bool.noConfusion hwin
  · intro is_root top_eq f hres
    rw [final_await_suspend_unpopped] at hres ⊢
    by_cases hc : f.joins = 1
    · rw [if_pos hc] at hres ⊢
      exact ⟨rfl, rfl⟩
    · rw [if_neg hc] at hres
      exact Bool.noConfusion hres

/-- Witness for `frame_lifecycle_inv`: the ready path at the initial frame
and a won suspend race with one stolen, already-joined child both restore
the invariant. -/
theorem frame_lifecycle_inv_witness :
    LifecycleInv (join_await_ready false frame_block.init).frame ∧
    LifecycleInv (join_await_suspend ⟨1, k_u32_max - 1, none⟩).frame := by
  constructor
  · exact frame_lifecycle_inv.2.2.1 false frame_block.init 0 ⟨rfl, Nat.le_refl 0, by decide⟩ rfl
  · exact frame_lifecycle_inv.2.2.2.1 ⟨1, k_u32_max - 1, none⟩ 1 ⟨rfl, Nat.le_refl 1, by decide⟩
      (by decide)

/-- C6: on a `single_thread_context` (the `unit_pool` case) the fork
`await_transform` is subsumed by the rewriting overload: the child is
invoked with tag `call`, the resulting awaitable is exactly the one the
corresponding `call` expression produces, and in the sequential execution
model a fork binds the same result as a call. -/
theorem unit_pool_fork_degrades_to_call (self fn : Nat) (arg : Int) :
    await_transform true self ⟨tag.fork, fn, arg⟩ = awaitable.call_aw ⟨tag.call, fn, arg⟩ ∧
    await_transform true self ⟨tag.fork, fn, arg⟩ =
      await_transform true self ⟨tag.call, fn, arg⟩ ∧
    (∀ (ev : Int → Option Int) (x : Int) (k : Int → task_body),
      eval_body ev (task_body.fork_child x k) = eval_body ev (task_body.call_child x k)) :=
  ⟨rfl, rfl, fun _ _ _ => rfl⟩

-- The fork/join Fibonacci evaluates, with enough fuel, to the sequential
-- Fibonacci.

theorem eval_task_fib (fuel : Nat) : ∀ n : Int, n.toNat < fuel →
    eval_task fib_body fuel n = some (sfib n) := by
  induction fuel with
  | zero => intro n h; omega
  | succ fuel ih =>
    intro n h
    by_cases hn : n < 2
    · have hs : sfib n = n := by rw [sfib]; simp [hn]
      simp [eval_task, eval_body, fib_body, hn, hs]
    · have hs : sfib n = sfib (n - 1) + sfib (n - 2) := by rw [sfib]; simp [hn]
      have h1 := ih (n - 1) (by omega)
      have h2 := ih (n - 2) (by omega)
      simp [eval_task, eval_body, fib_body, hn, h1, h2, hs]

/-- C1: the sequential execution of `sync_wait` on the fork/join Fibonacci
returns the sequentially computed Fibonacci for every argument; in
particular `fib(10)` returns `55`. -/
theorem sync_wait_pure_fib (n : Int) :
    eval_task fib_body (n.toNat + 1) n = some (sfib n) ∧
    eval_task fib_body 11 10 = some 55 ∧ sfib 10 = 55 := by
  refine ⟨eval_task_fib _ n (by omega), by decide, ?_⟩
  have h := eval_task_fib 11 10 (by decide)
  have h2 : eval_task fib_body 11 10 = some 55 := by decide
  rw [h] at h2
  exact Option.some.inj h2

-- The exceptional Fibonacci raises exactly for arguments of at least 7.

theorem efib_eval_spec (fuel : Nat) : ∀ n : Int, n.toNat < fuel →
    efib_eval fuel n = some (if 7 ≤ n then Except.error () else Except.ok (sfib n)) := by
  induction fuel with
  | zero => intro n h; omega
  | succ fuel ih =>
    intro n h
    by_cases h7 : n = 7
    · subst h7; simp [efib_eval]
    · by_cases h2 : n < 2
      · have h7n : ¬(7 ≤ n) := by omega
        have hs : sfib n = n := by rw [sfib]; simp [h2]
        simp [efib_eval, h7, h2, h7n, hs]
      · have h1 := ih (n - 1) (by omega)
        by_cases h8 : 7 ≤ n - 1
        · have h7n : 7 ≤ n := by omega
          simp [efib_eval, h7, h2, h1, h8, h7n]
        · have h7n : ¬(7 ≤ n) := by omega
          have h72 : ¬(7 ≤ n - 2) := by omega
          have hs : sfib n = sfib (n - 1) + sfib (n - 2) := by rw [sfib]; simp [h2]
          have hn2 := ih (n - 2) (by omega)
          simp [efib_eval, h7, h2, h1, h8, h7n, h72, hn2, hs]

/-- C2: a failure escaping a task body is never rethrown at final suspend
(no branch of the final awaitable rethrows), `stash_exception` captures it
into the frame's `exception_slot`, and for the exception-throwing Fibonacci
the sequential execution of `sync_wait` raises exactly when `n ≥ 7` and
returns the normal value for every `n < 7`. -/
theorem exception_captured_not_rethrown :
    (∀ (t : tag) (p : frame_block) (a b c : Bool),
      (final_awaitable_suspend t p a b c).rethrown = false) ∧
    (∀ f : frame_block, f.exception_slot = none →
      (stash_exception f).exception_slot = some ()) ∧
    (∀ n : Int, efib_eval (n.toNat + 1) n =
      some (if 7 ≤ n then Except.error () else Except.ok (sfib n))) := by
  refine ⟨fun t p a b c => ?_, fun f hf => ?_, fun n => efib_eval_spec _ n (by omega)⟩
  · cases t <;> rfl
  · simp [stash_exception, frame_block.capture_exception, hf]

/-- Witness for `exception_captured_not_rethrown`: stashing into a fresh
frame fills the slot, `fib(7)` raises, and `fib(6)` returns `8` normally. -/
theorem exception_captured_not_rethrown_witness :
    (stash_exception frame_block.init).exception_slot = some () ∧
    efib_eval 8 7 = some (Except.error ()) ∧
    efib_eval 7 6 = some (Except.ok 8) := by
  refine ⟨exception_captured_not_rethrown.2.1 frame_block.init rfl, ?_, ?_⟩
  · have h := exception_captured_not_rethrown.2.2 7
    simpa using h
  · have hs : sfib 6 = 8 := by
      have h1 := eval_task_fib 7 6 (by norm_num)
      have h2 : eval_task fib_body 7 6 = some 8 := by decide
      rw [h1] at h2
      exact Option.some.inj h2
    have h := exception_captured_not_rethrown.2.2 6
    rw [hs] at h
    simpa using h

/-! ### Correctness of the sequential scan -/

theorem rsum_single (x : Nat → Int) (b : Nat) : rsum x b (b + 1) = x b := by
  rw [rsum, Finset.sum_Ico_succ_top (Nat.le_refl b), Finset.Ico_self, Finset.sum_empty,
    zero_add]

theorem rsum_split (x : Nat → Int) {b m e : Nat} (h1 : b ≤ m) (h2 : m ≤ e) :
    rsum x b m + rsum x m e = rsum x b e :=
  Finset.sum_Ico_consecutive x h1 h2

theorem rsum_congr {x y : Nat → Int} {b e : Nat}
    (h : ∀ j, b ≤ j → j < e → x j = y j) : rsum x b e = rsum y b e := by
  refine Finset.sum_congr rfl fun j hj => ?_
  obtain ⟨h1, h2⟩ := Finset.mem_Ico.mp hj
  exact h j h1 h2

theorem rsum_two (x : Nat → Int) (b : Nat) : rsum x b (b + 2) = x b + x (b + 1) := by
  rw [show b + 2 = (b + 1) + 1 from rfl, rsum, Finset.sum_Ico_succ_top (by omega),
    ← rsum, rsum_single]

theorem rsum_ones (e : Nat) : rsum (fun _ => (1 : Int)) 0 e = e := by
  simp [rsum]

-- Pointwise behaviour of the two write operations.

theorem bop_eq (v : Nat → Int) (l r : Nat) : bop v l r r = v l + v r := by
  unfold bop
  rw [if_pos rfl]

theorem bop_ne (v : Nat → Int) (l r j : Nat) (h : j ≠ r) : bop v l r j = v j := by
  unfold bop
  rw [if_neg h]

theorem writeAdd_eq (v : Nat → Int) (dst src : Nat) :
    writeAdd v dst src dst = v dst + v src := by
  unfold writeAdd
  rw [if_pos rfl]

theorem writeAdd_ne (v : Nat → Int) (dst src j : Nat) (h : j ≠ dst) :
    writeAdd v dst src j = v j := by
  unfold writeAdd
  rw [if_neg h]

-- `scan_up` never writes outside the open interior `(b, e)`.

theorem scan_up_untouched (fuel : Nat) : ∀ (v : Nat → Int) (b e j : Nat),
    j ≤ b ∨ e ≤ j → scan_up fuel v b e j = v j := by
  induction fuel with
  | zero => intro v b e j _; rfl
  | succ fuel ih =>
    intro v b e j hj
    simp only [scan_up]
    by_cases h1 : e - b ≤ 1
    · simp [h1]
    · by_cases h2 : e - b = 2
      · simp only [if_neg h1, if_pos h2, bop]
        rw [if_neg (by omega)]
      · simp only [if_neg h1, if_neg h2, bop]
        rw [if_neg (by omega), ih _ _ _ _ (by omega), ih _ _ _ _ (by omega)]

-- After `scan_up`, the last position of the range holds the range's sum.

theorem scan_up_last (fuel : Nat) : ∀ (v : Nat → Int) (b e : Nat),
    1 ≤ e - b → e - b ≤ fuel → scan_up fuel v b e (e - 1) = rsum v b e := by
  induction fuel with
  | zero => intro v b e h1 h2; omega
  | succ fuel ih =>
    intro v b e h1 h2
    simp only [scan_up]
    by_cases hs1 : e - b ≤ 1
    · have he : e = b + 1 := by omega
      subst he
      simp only [if_pos hs1, Nat.add_sub_cancel, rsum_single]
    · by_cases hs2 : e - b = 2
      · have he : e = b + 2 := by omega
        subst he
        simp only [if_neg hs1, if_pos hs2]
        rw [show b + 2 - 1 = b + 1 by omega, bop_eq, rsum_two]
      · simp only [if_neg hs1, if_neg hs2]
        have hmid1 : b + 1 ≤ b + (e - b) / 2 := by omega
        have hmid2 : b + (e - b) / 2 + 1 ≤ e - 1 := by omega
        rw [bop_eq, scan_up_untouched fuel _ _ _ _ (by omega),
          ih _ b (b + (e - b) / 2) (by omega) (by omega),
          ih _ (b + (e - b) / 2) e (by omega) (by omega),
          rsum_congr fun j hja hjb => scan_up_untouched fuel v b _ j (by omega),
          rsum_split v (by omega) (by omega)]

-- `IsUpInner` only reads the state on `[b, e-1)` and the originals on
-- `[b, e)`.

theorem IsUpInner_congr_w (fuel : Nat) : ∀ (x w w' : Nat → Int) (b e : Nat),
    IsUpInner fuel x w b e → (∀ j, b ≤ j → j + 1 < e → w' j = w j) →
    IsUpInner fuel x w' b e := by
  induction fuel with
  | zero => intro x w w' b e _ _; trivial
  | succ fuel ih =>
    intro x w w' b e h hagree
    simp only [IsUpInner] at h ⊢
    by_cases h2 : e - b ≤ 2
    · simp only [if_pos h2] at h ⊢
      intro he2
      rw [hagree b (Nat.le_refl b) (by omega)]
      exact h he2
    · simp only [if_neg h2] at h ⊢
      obtain ⟨hA, hB, hC⟩ := h
      refine ⟨ih x w w' b _ hA fun j hj1 hj2 => hagree j hj1 (by omega), ?_,
        ih x w w' _ e hC fun j hj1 hj2 => hagree j (by omega) hj2⟩
      rw [hagree _ (by omega) (by omega)]
      exact hB

theorem IsUpInner_congr_x (fuel : Nat) : ∀ (x x' w : Nat → Int) (b e : Nat),
    IsUpInner fuel x w b e → (∀ j, b ≤ j → j < e → x' j = x j) →
    IsUpInner fuel x' w b e := by
  induction fuel with
  | zero => intro x x' w b e _ _; trivial
  | succ fuel ih =>
    intro x x' w b e h hagree
    simp only [IsUpInner] at h ⊢
    by_cases h2 : e - b ≤ 2
    · simp only [if_pos h2] at h ⊢
      intro he2
      rw [hagree b (Nat.le_refl b) (by omega)]
      exact h he2
    · simp only [if_neg h2] at h ⊢
      obtain ⟨hA, hB, hC⟩ := h
      refine ⟨ih x x' w b _ hA fun j hj1 hj2 => hagree j hj1 (by omega), ?_,
        ih x x' w _ e hC fun j hj1 hj2 => hagree j (by omega) hj2⟩
      rw [hB]
      exact (rsum_congr fun j hj1 hj2 => hagree j hj1 (by omega)).symm

-- `scan_up` leaves its range (last position excluded) in `IsUpInner` shape.

theorem scan_up_isUpInner (fuel : Nat) : ∀ (v : Nat → Int) (b e : Nat),
    e - b ≤ fuel → IsUpInner fuel v (scan_up fuel v b e) b e := by
  induction fuel with
  | zero => intro v b e _; trivial
  | succ fuel ih =>
    intro v b e hf
    simp only [scan_up, IsUpInner]
    by_cases h1 : e - b ≤ 1
    · have h2 : e - b ≤ 2 := by omega
      simp only [if_pos h1, if_pos h2]
      intro he2
      omega
    · by_cases h2 : e - b = 2
      · simp only [if_neg h1, if_pos h2, if_pos (by omega : e - b ≤ 2)]
        intro _
        rw [bop_ne _ _ _ _ (by omega)]
      · simp only [if_neg h1, if_neg h2, if_neg (by omega : ¬(e - b ≤ 2))]
        have hm1 : b + 1 ≤ b + (e - b) / 2 := by omega
        have hm2 : b + (e - b) / 2 + 1 ≤ e - 1 := by omega
        refine ⟨?_, ?_, ?_⟩
        · refine IsUpInner_congr_w fuel v _ _ b _ (ih v b (b + (e - b) / 2) (by omega))
            fun j hj1 hj2 => ?_
          rw [bop_ne _ _ _ _ (by omega)]
          exact scan_up_untouched fuel _ _ _ _ (by omega)
        · rw [bop_ne _ _ _ _ (by omega), scan_up_untouched fuel _ _ _ _ (by omega)]
          exact scan_up_last fuel v b (b + (e - b) / 2) (by omega) (by omega)
        · refine IsUpInner_congr_w fuel v
            (scan_up fuel (scan_up fuel v b (b + (e - b) / 2)) (b + (e - b) / 2) e) _
            (b + (e - b) / 2) e ?_ fun j hj1 hj2 => ?_
          · refine IsUpInner_congr_x fuel _ v _ _ e
              (ih (scan_up fuel v b (b + (e - b) / 2)) (b + (e - b) / 2) e (by omega))
              fun j hj1 hj2 => (scan_up_untouched fuel v b _ j (by omega)).symm
          · rw [bop_ne _ _ _ _ (by omega)]

-- The down passes never write outside `[b, e-1)`.

theorem scan_down_r_untouched (fuel : Nat) : ∀ (v : Nat → Int) (b e j : Nat),
    j < b ∨ e - 1 ≤ j → scan_down_r fuel v b e j = v j := by
  induction fuel with
  | zero => intro v b e j _; rfl
  | succ fuel ih =>
    intro v b e j hj
    simp only [scan_down_r]
    by_cases h1 : e - b ≤ 1
    · simp [h1]
    · by_cases h2 : e - b = 2
      · simp only [if_neg h1, if_pos h2, writeAdd]
        rw [if_neg (by omega)]
      · simp only [if_neg h1, if_neg h2]
        rw [ih _ _ _ _ (by omega), ih _ _ _ _ (by omega)]
        simp only [writeAdd]
        rw [if_neg (by omega)]

theorem scan_down_l_untouched (fuel : Nat) : ∀ (v : Nat → Int) (b e j : Nat),
    j < b ∨ e - 1 ≤ j → scan_down_l fuel v b e j = v j := by
  induction fuel with
  | zero => intro v b e j _; rfl
  | succ fuel ih =>
    intro v b e j hj
    simp only [scan_down_l]
    by_cases h1 : e - b ≤ 2
    · simp [h1]
    · simp only [if_neg h1]
      rw [scan_down_r_untouched fuel _ _ _ _ (by omega), ih _ _ _ _ (by omega)]

-- `scan_down_r` on an `IsUpInner` state whose last cell already carries the
-- left context finalises the whole range to prefix sums plus that context.

theorem scan_down_r_spec (fuel : Nat) : ∀ (x w : Nat → Int) (b e : Nat),
    1 ≤ b → 1 ≤ e - b → e - b ≤ fuel →
    IsUpInner fuel x w b e → w (e - 1) = w (b - 1) + rsum x b e →
    ∀ j, b ≤ j → j < e → scan_down_r fuel w b e j = w (b - 1) + rsum x b (j + 1) := by
  induction fuel with
  | zero => intro x w b e _ h1 h2 _ _ j _ _; omega
  | succ fuel ih =>
    intro x w b e hb h1 hf hInner hLast j hj1 hj2
    simp only [scan_down_r]
    by_cases hs1 : e - b ≤ 1
    · have he : e = b + 1 := by omega
      subst he
      have hj : j = b := by omega
      subst hj
      simp only [if_pos hs1]
      simpa using hLast
    · by_cases hs2 : e - b = 2
      · have he : e = b + 2 := by omega
        subst he
        have hwb : w b = x b := by
          simp only [IsUpInner, if_pos (by omega : b + 2 - b ≤ 2)] at hInner
          exact hInner (by omega)
        simp only [if_neg hs1, if_pos hs2, writeAdd]
        rcases (by omega : j = b ∨ j = b + 1) with hj | hj <;> subst hj
        · rw [if_pos rfl, hwb, rsum_single]
          ring
        · rw [if_neg (by omega)]
          simpa using hLast
      · simp only [if_neg hs1, if_neg hs2]
        set mid := b + (e - b) / 2 with hmid
        simp only [IsUpInner, if_neg (show ¬(e - b ≤ 2) from by omega)] at hInner
        rw [← hmid] at hInner
        obtain ⟨hA, hB, hC⟩ := hInner
        have hmb : b + 1 ≤ mid := by omega
        have hme : mid + 1 ≤ e - 1 := by omega
        have hA' : IsUpInner fuel x (writeAdd w (mid - 1) (b - 1)) b mid :=
          IsUpInner_congr_w fuel x w _ b mid hA fun k hk1 hk2 =>
            writeAdd_ne _ _ _ _ (by omega)
        have hlast1 : (writeAdd w (mid - 1) (b - 1)) (mid - 1) =
            (writeAdd w (mid - 1) (b - 1)) (b - 1) + rsum x b mid := by
          rw [writeAdd_eq, writeAdd_ne _ _ _ _ (by omega), hB]
          ring
        have hw1 := ih x (writeAdd w (mid - 1) (b - 1)) b mid hb (by omega) (by omega)
          hA' hlast1
        have hwb1 : (writeAdd w (mid - 1) (b - 1)) (b - 1) = w (b - 1) :=
          writeAdd_ne _ _ _ _ (by omega)
        have hw1' : ∀ k, b ≤ k → k < mid →
            scan_down_r fuel (writeAdd w (mid - 1) (b - 1)) b mid k =
              w (b - 1) + rsum x b (k + 1) := fun k hk1 hk2 => by
          rw [hw1 k hk1 hk2, hwb1]
        have hunt1 : ∀ k, mid ≤ k →
            scan_down_r fuel (writeAdd w (mid - 1) (b - 1)) b mid k = w k := fun k hk => by
          rw [scan_down_r_untouched fuel _ _ _ _ (Or.inr (by omega))]
          exact writeAdd_ne _ _ _ _ (by omega)
        have hC' : IsUpInner fuel x
            (scan_down_r fuel (writeAdd w (mid - 1) (b - 1)) b mid) mid e :=
          IsUpInner_congr_w fuel x w _ mid e hC fun k hk1 _ => hunt1 k hk1
        have hlast2 : scan_down_r fuel (writeAdd w (mid - 1) (b - 1)) b mid (e - 1) =
            scan_down_r fuel (writeAdd w (mid - 1) (b - 1)) b mid (mid - 1) +
              rsum x mid e := by
          rw [hunt1 (e - 1) (by omega), hLast, hw1' (mid - 1) (by omega) (by omega),
            show mid - 1 + 1 = mid by omega,
            ← rsum_split x (show b ≤ mid by omega) (show mid ≤ e by omega)]
          ring
        have hw2 := ih x _ mid e (by omega) (by omega) (by omega) hC' hlast2
        rcases lt_or_ge j mid with hj | hj
        · rw [scan_down_r_untouched fuel _ mid e j (Or.inl hj), hw1' j hj1 hj]
        · rw [hw2 j hj hj2, hw1' (mid - 1) (by omega) (by omega),
            show mid - 1 + 1 = mid by omega,
            ← rsum_split x (show b ≤ mid by omega) (show mid ≤ j + 1 by omega)]
          ring

-- `scan_down_l` on the state `scan_up` produced finalises the whole range
-- to inclusive prefix sums.

theorem scan_down_l_spec (fuel : Nat) : ∀ (x w : Nat → Int) (b e : Nat),
    1 ≤ e - b → e - b ≤ fuel →
    IsUpInner fuel x w b e → w (e - 1) = rsum x b e →
    ∀ j, b ≤ j → j < e → scan_down_l fuel w b e j = rsum x b (j + 1) := by
  induction fuel with
  | zero => intro x w b e h1 h2 _ _ j _ _; omega
  | succ fuel ih =>
    intro x w b e h1 hf hInner hLast j hj1 hj2
    simp only [scan_down_l]
    by_cases hs1 : e - b ≤ 2
    · simp only [if_pos hs1]
      rcases (by omega : e = b + 1 ∨ e = b + 2) with he | he
      · subst he
        have hj : j = b := by omega
        subst hj
        simpa using hLast
      · subst he
        have hwb : w b = x b := by
          simp only [IsUpInner, if_pos (by omega : b + 2 - b ≤ 2)] at hInner
          exact hInner (by omega)
        rcases (by omega : j = b ∨ j = b + 1) with hj | hj <;> subst hj
        · rw [hwb, rsum_single]
        · simpa using hLast
    · simp only [if_neg hs1]
      set mid := b + (e - b) / 2 with hmid
      simp only [IsUpInner, if_neg (show ¬(e - b ≤ 2) from hs1)] at hInner
      rw [← hmid] at hInner
      obtain ⟨hA, hB, hC⟩ := hInner
      have hmb : b + 1 ≤ mid := by omega
      have hme : mid + 1 ≤ e - 1 := by omega
      have hw1 := ih x w b mid (by omega) (by omega) hA hB
      have hunt1 : ∀ k, mid ≤ k → scan_down_l fuel w b mid k = w k := fun k hk =>
        scan_down_l_untouched fuel _ _ _ _ (Or.inr (by omega))
      have hC' : IsUpInner fuel x (scan_down_l fuel w b mid) mid e :=
        IsUpInner_congr_w fuel x w _ mid e hC fun k hk1 _ => hunt1 k hk1
      have hlast2 : scan_down_l fuel w b mid (e - 1) =
          scan_down_l fuel w b mid (mid - 1) + rsum x mid e := by
        rw [hunt1 (e - 1) (by omega), hLast, hw1 (mid - 1) (by omega) (by omega),
          show mid - 1 + 1 = mid by omega,
          ← rsum_split x (show b ≤ mid by omega) (show mid ≤ e by omega)]
      have hw2 := scan_down_r_spec fuel x _ mid e (by omega) (by omega) (by omega)
        hC' hlast2
      rcases lt_or_ge j mid with hj | hj
      · rw [scan_down_r_untouched fuel _ mid e j (Or.inl hj), hw1 j hj1 hj]
      · rw [hw2 j hj hj2, hw1 (mid - 1) (by omega) (by omega),
          show mid - 1 + 1 = mid by omega]
        exact rsum_split x (by omega) (by omega)

-- Top-level correctness of `scan` on `[0, n)`.

theorem scan_correct (x : Nat → Int) (n : Nat) (h : 1 ≤ n) :
    ∀ i, i < n → scan x 0 n i = rsum x 0 (i + 1) := by
  intro i hi
  unfold scan
  have hup := scan_up_isUpInner (n - 0) x 0 n (Nat.le_refl _)
  have hlast := scan_up_last (n - 0) x 0 n (by omega) (by omega)
  exact scan_down_l_spec (n - 0) x _ 0 n (by omega) (by omega) hup hlast i (by omega) hi

/-- C10: the sequential in-place scan helper computes inclusive prefix sums:
for every buffer and every `n ≥ 1`, after `scan` over `[0, n)` the cell at
`i` holds the sum of the original cells `0..i`; in particular a buffer of
ones becomes `1, 2, ..., n`. -/
theorem scan_inclusive_prefix_sums (x : Nat → Int) (n : Nat) (h : 1 ≤ n) :
    (∀ i, i < n → scan x 0 n i = rsum x 0 (i + 1)) ∧
    (∀ i, i < n → scan (fun _ => (1 : Int)) 0 n i = (i : Int) + 1) := by
  refine ⟨scan_correct x n h, fun i hi => ?_⟩
  rw [scan_correct (fun _ => (1 : Int)) n h i hi, rsum_ones]
  push_cast
  ring

/-- Witness for `scan_inclusive_prefix_sums`: scanning three ones turns the
cell at index 2 into 3. -/
theorem scan_inclusive_prefix_sums_witness :
    (1 : Nat) ≤ 3 ∧ scan (fun _ => (1 : Int)) 0 3 2 = ((2 : Nat) : Int) + 1 ∧
      scan (fun _ => (1 : Int)) 0 3 2 = 3 := by
  refine ⟨by decide, ?_, by decide⟩
  exact (scan_inclusive_prefix_sums (fun _ => (1 : Int)) 3 (by decide)).2 2 (by decide)

end LibforkCore
